import Mathlib

/-!
Formal model of the manabox_to_mongodb import pipeline (src/index.js).

The script reads a CSV of card inventory rows, batches them 75 at a time,
posts each batch's scryfall identifiers to a collection-lookup endpoint,
merges the returned metadata onto the matching records, accumulates running
totals, bulk-inserts each merged batch, and finally writes one summary
document; any error aborts the run via exit(1).

Modelling conventions:
  - JavaScript numbers reached by coercing CSV column strings are modelled by
    JSNum: `num q` is a column whose JS numeric value is the rational q, `nan`
    is a non-numeric column (JS NaN). Arithmetic propagates nan, as in JS.
  - The remote service is a parameter `svc : Query → Except Unit
    ScryfallResponse`; `Except.error` covers both transport errors and
    non-2xx statuses (axios rejects on both).
  - A JS TypeError inside the merge loop (metadata matching no record, or a
    card with neither image_uris nor card_faces) is modelled as `none`, which
    processBatch turns into the aborted outcome, exactly as the try/catch
    around the loop does.
  - Persistence: saveCards models MagicCard.insertMany, which validates every
    card against the schema's Number casts (quantity, price) before inserting
    and rejects the whole batch when one fails; cards of successful batches
    accumulate in insertion order, saveCollection builds the summary document.
  - In the source the merge loop mutates record objects in place; since the
    fields consulted later (scryfallId, price, quantity) are never mutated,
    the snapshot semantics used here agrees with the aliasing semantics on
    everything observable below.
-/

/-- A CSV column as a JS number: the numeric coercion of the column string,
or NaN when the string is not numeric. -/
inductive JSNum where
  | num (q : ℚ)
  | nan
deriving DecidableEq, Repr

/-- JS addition: NaN is absorbing. -/
def jsAdd : JSNum → JSNum → JSNum
  | JSNum.num a, JSNum.num b => JSNum.num (a + b)
  | _, _ => JSNum.nan

/-- JS multiplication: NaN is absorbing. -/
def jsMul : JSNum → JSNum → JSNum
  | JSNum.num a, JSNum.num b => JSNum.num (a * b)
  | _, _ => JSNum.nan

/-- One decoded CSV row, restricted to the columns the script reads
(indices 4, 6, 7, 8, 9 of the manabox export). -/
structure Row where
  finish : String
  quantityCol : JSNum
  manaboxIdCol : String
  scryfallIdCol : String
  priceCol : JSNum
deriving DecidableEq, Repr

/-- Image links for one face, as copied from the service response. -/
structure ImageUris where
  small : String
  normal : String
  large : String
deriving DecidableEq, Repr

/-- One entry of a card_faces list; the script only reads its image_uris. -/
structure Face where
  image_uris : ImageUris
deriving DecidableEq, Repr

/-- The images object the script builds: front is always assigned on the
paths that succeed, back only for a second card face. -/
structure ImageSet where
  front : ImageUris
  back : Option ImageUris
deriving DecidableEq, Repr

/-- An inventory record as built by readCsv and later mutated by the merge
loop; the enrichment fields are absent (none) until the merge assigns them. -/
structure Record where
  foil : Bool
  quantity : JSNum
  manaboxId : String
  scryfallId : String
  price : JSNum
  name : Option String := none
  setCode : Option String := none
  setName : Option String := none
  rarity : Option String := none
  layout : Option String := none
  images : Option ImageSet := none
deriving DecidableEq, Repr

/-- The record built from one row inside readCsv's for-await loop:
foil is the ternary on column 4, quantity/manaboxId/scryfallId are copied
verbatim, price is column 9 times 100 (JS coercion, no rounding). -/
def normalizeRecord (row : Row) : Record :=
  { foil := if row.finish = "normal" then false else true
    quantity := row.quantityCol
    manaboxId := row.manaboxIdCol
    scryfallId := row.scryfallIdCol
    price := jsMul row.priceCol (JSNum.num 100) }

/-- readCsv: every parsed row is normalized and pushed; there is no
validation and no failure path for malformed column values. -/
def readCsv (rows : List Row) : List Record :=
  rows.map normalizeRecord

/-- One card metadata object of the response's data list. -/
structure CardMeta where
  id : String
  name : String
  set : String
  set_name : String
  rarity : String
  layout : String
  image_uris : Option ImageUris
  card_faces : List Face
deriving DecidableEq, Repr

/-- The images value the merge loop assigns: image_uris (when truthy) gives
front only; otherwise card_faces[0] gives front and card_faces[1], when
present, gives back. A card with neither is a TypeError (none). -/
def mkImages (card : CardMeta) : Option ImageSet :=
  match card.image_uris with
  | some u => some { front := u, back := none }
  | none =>
    match card.card_faces with
    | [] => none
    | f0 :: rest =>
      some { front := f0.image_uris
             back := match rest with
                     | [] => none
                     | f1 :: _ => some f1.image_uris }

/-- The field assignments the merge loop performs on the found record. -/
def enrichWith (r : Record) (card : CardMeta) (imgs : ImageSet) : Record :=
  { r with name := some card.name
           setCode := some card.set
           setName := some card.set_name
           rarity := some card.rarity
           layout := some card.layout
           images := some imgs }

/-- Full enrichment of one record by one metadata object; none when the
image construction raises (no image_uris and no card_faces). -/
def enrich (r : Record) (card : CardMeta) : Option Record :=
  (mkImages card).map (enrichWith r card)

example :
    readCsv [Row.mk "foil" (JSNum.num 2) "m1" "s1" (JSNum.num (35/10))] =
      [Record.mk true (JSNum.num 2) "m1" "s1" (JSNum.num 350)
        none none none none none none] := by
  simp only [readCsv, normalizeRecord, jsMul, List.map_cons, List.map_nil]
  norm_num
  decide

/-- Batch size used by the slicing loop in processRecords. -/
def BATCH_SIZE : Nat := 75

/-- Iteration body of the slicing loop in processRecords: each pass emits
records.slice(i, i + BATCH_SIZE) and advances by BATCH_SIZE. The first
argument bounds the number of loop iterations (the source loop runs while
i < records.length, so records.length iterations always suffice); it exists
only to make the recursion structural and is never exhausted below. -/
def chunksGo : Nat → List Record → List (List Record)
  | _, [] => []
  | 0, _ :: _ => []
  | fuel + 1, x :: xs =>
      (x :: xs).take BATCH_SIZE :: chunksGo fuel ((x :: xs).drop BATCH_SIZE)

/-- The batches produced by the for-loop in processRecords. -/
def chunks (records : List Record) : List (List Record) :=
  chunksGo records.length records

/-- One identifier object pushed onto the query's identifiers array. -/
structure Identifier where
  id : String
deriving DecidableEq, Repr

/-- Body of the POST to the collection endpoint. -/
structure Query where
  identifiers : List Identifier
deriving DecidableEq, Repr

/-- The identifiers array built by the first loop of processBatch. -/
def buildIdentifiers (records : List Record) : List Identifier :=
  records.map (fun r => { id := r.scryfallId })

/-- Response body of a successful call: res.data.data is the list of card
metadata objects. -/
structure ScryfallResponse where
  data : List CardMeta
deriving DecidableEq, Repr

/-- Handling of one metadata object by the merge loop: records.find locates
the first record whose scryfallId equals card.id (undefined aborts), the
enrichment fields are assigned, and the found record's price times quantity
is the contribution added to totalPrice. -/
def mergeStep (records : List Record) (card : CardMeta) :
    Option (Record × JSNum) :=
  match records.find? (fun r => r.scryfallId == card.id) with
  | none => none
  | some r => (enrich r card).map (fun c => (c, jsMul r.price r.quantity))

/-- The whole merge loop of processBatch over res.data.data: returns the
cards array pushed for saveCards and the total added to totalPrice, or none
when any iteration raises (caught by the surrounding try, aborting the run). -/
def mergeLoop (records : List Record) : List CardMeta →
    Option (List Record × JSNum)
  | [] => some ([], JSNum.num 0)
  | card :: rest =>
      (mergeStep records card).bind (fun cv =>
        (mergeLoop records rest).map (fun csp =>
          (cv.1 :: csp.1, jsAdd cv.2 csp.2)))

/-- Outcome of processBatch: ok carries the cards handed to saveCards, the
amount added to totalPrice, and the function's return value (records.length,
which processRecords adds to totalCards); aborted is the catch-and-exit path. -/
inductive BatchOutcome where
  | ok (saved : List Record) (priceDelta : JSNum) (ret : Nat)
  | aborted
deriving DecidableEq, Repr

/-- Mongoose Number cast of one value, as the store applies it to the
quantity and price fields the schema types as required Numbers: a castable
(numeric) value passes, NaN or a non-numeric string is a CastError. -/
def castsToNumber : JSNum → Bool
  | JSNum.num _ => true
  | JSNum.nan => false

/-- saveCards: MagicCard.insertMany validates every card against the schema
before inserting; a card whose quantity or price fails the Number cast
rejects the whole (ordered) insert and nothing of the batch is stored. The
string and image fields of an enriched card always cast, so quantity and
price are the only casts that can fail for cards reaching this point. -/
def saveCards (cards : List Record) : Except Unit Unit :=
  if cards.all (fun c => castsToNumber c.quantity && castsToNumber c.price)
  then Except.ok () else Except.error ()

/-- processBatch: builds the identifiers query, posts it (svc models axios,
erroring on transport failures and non-success statuses alike), runs the
merge loop, hands the cards to saveCards, and returns records.length; any
error, including a rejected insertMany, lands in the catch block, which
calls exit. -/
def processBatch (svc : Query → Except Unit ScryfallResponse)
    (records : List Record) : BatchOutcome :=
  match svc { identifiers := buildIdentifiers records } with
  | Except.error _ => BatchOutcome.aborted
  | Except.ok res =>
      match mergeLoop records res.data with
      | none => BatchOutcome.aborted
      | some (cards, p) =>
          match saveCards cards with
          | Except.error _ => BatchOutcome.aborted
          | Except.ok _ => BatchOutcome.ok cards p records.length

/-- The summary document saveCollection writes from the two totals. -/
structure Summary where
  total : Nat
  value : JSNum
deriving DecidableEq, Repr

/-- Observable outcome of one run: every card handed to persistence (in
insertion order), the summary document if one was written, the process exit
status, and whether the mongoose connection was released. -/
structure RunResult where
  savedCards : List Record
  summary : Option Summary
  exitCode : Nat
  connectionReleased : Bool
deriving DecidableEq, Repr

/-- The exit helper: logs, disconnects from the store, and exits with
status 1; nothing further is persisted and no summary is written. -/
def exitRun (savedSoFar : List Record) : RunResult :=
  { savedCards := savedSoFar, summary := none, exitCode := 1,
    connectionReleased := true }

/-- The loop of processRecords over the batches: each batch's cards are
persisted and records.length is added to totalCards; on completion
saveCollection writes the summary and main disconnects with status 0. -/
def runBatches (svc : Query → Except Unit ScryfallResponse) :
    List (List Record) → Nat → JSNum → List Record → RunResult
  | [], totalCards, totalPrice, saved =>
      { savedCards := saved, summary := some ⟨totalCards, totalPrice⟩,
        exitCode := 0, connectionReleased := true }
  | b :: bs, totalCards, totalPrice, saved =>
      match processBatch svc b with
      | BatchOutcome.aborted => exitRun saved
      | BatchOutcome.ok cards p n =>
          runBatches svc bs (totalCards + n) (jsAdd totalPrice p)
            (saved ++ cards)

/-- processRecords: slices the records BATCH_SIZE at a time and drives each
slice through processBatch, starting from zero totals. -/
def processRecords (svc : Query → Except Unit ScryfallResponse)
    (records : List Record) : RunResult :=
  runBatches svc (chunks records) 0 (JSNum.num 0) []

/-- The main entry point: read and normalize the CSV, then process it. -/
def runImport (svc : Query → Except Unit ScryfallResponse)
    (rows : List Row) : RunResult :=
  processRecords svc (readCsv rows)

/-! Concrete fixtures used by witnesses and counterexamples. -/

def uW : ImageUris := ⟨"us", "un", "ul"⟩
def uW2 : ImageUris := ⟨"vs", "vn", "vl"⟩
def fW1 : Face := ⟨uW⟩
def fW2 : Face := ⟨uW2⟩

def rAW : Record :=
  Record.mk false (JSNum.num 2) "ma" "a" (JSNum.num 100)
    none none none none none none
def rBW : Record :=
  Record.mk false (JSNum.num 1) "mb" "b" (JSNum.num 200)
    none none none none none none
def rCW : Record :=
  Record.mk true (JSNum.num 3) "mc" "c" (JSNum.num 50)
    none none none none none none

def metaFor (s : String) : CardMeta :=
  ⟨s, "Card " ++ s, "st", "Set", "rare", "normal", some uW, []⟩

/-- C7: a metadata object with a unified image_uris yields front only and no
back; with one card face, front comes from that face and back is absent;
with two card faces, front comes from the first and back from the second. -/
theorem c7_imageset_rule (m : CardMeta) (u : ImageUris) (f1 f2 : Face) :
    (m.image_uris = some u → mkImages m = some ⟨u, none⟩)
    ∧ (m.image_uris = none → m.card_faces = [f1] →
        mkImages m = some ⟨f1.image_uris, none⟩)
    ∧ (m.image_uris = none → m.card_faces = [f1, f2] →
        mkImages m = some ⟨f1.image_uris, some f2.image_uris⟩) := by
  refine ⟨fun h => ?_, fun h h2 => ?_, fun h h2 => ?_⟩
  · simp [mkImages, h]
  · simp [mkImages, h, h2]
  · simp [mkImages, h, h2]

def mUnifiedW : CardMeta :=
  ⟨"a", "Card a", "st", "Set", "rare", "normal", some uW, [fW1, fW2]⟩
def mTwoFaceW : CardMeta :=
  ⟨"b", "Card b", "st", "Set", "rare", "transform", none, [fW1, fW2]⟩
def mOneFaceW : CardMeta :=
  ⟨"c", "Card c", "st", "Set", "rare", "normal", none, [fW1]⟩

/-- Witness for C7 on three concrete metadata objects. -/
theorem c7_imageset_rule_witness :
    mkImages mUnifiedW = some ⟨uW, none⟩
    ∧ mkImages mOneFaceW = some ⟨fW1.image_uris, none⟩
    ∧ mkImages mTwoFaceW = some ⟨fW1.image_uris, some fW2.image_uris⟩ :=
  ⟨(c7_imageset_rule mUnifiedW uW fW1 fW2).1 rfl,
   (c7_imageset_rule mOneFaceW uW fW1 fW2).2.1 rfl rfl,
   (c7_imageset_rule mTwoFaceW uW fW1 fW2).2.2 rfl rfl⟩

def rowPW : Row := ⟨"normal", JSNum.num 1, "mp", "sp", JSNum.num (1/200)⟩

/-- C3 fails as stated: readCsv applies no rounding, so a price column of
0.005 stores 0.5, not the nearest cent-integer round(0.005 times 100) = 1. -/
theorem c3_counterexample :
    rowPW.priceCol = JSNum.num (1/200)
    ∧ (normalizeRecord rowPW).price = JSNum.num (1/2)
    ∧ (normalizeRecord rowPW).price ≠
        JSNum.num ((round ((1/200 : ℚ) * 100) : ℤ) : ℚ) := by
  refine ⟨rfl, ?_, ?_⟩
  · simp only [normalizeRecord, rowPW, jsMul]
    norm_num
  · simp only [normalizeRecord, rowPW, jsMul]
    rw [show ((1 : ℚ)/200 * 100) = 1/2 by norm_num, round_eq]
    norm_num

/-- C3 amended: unitPriceCents is the price column times 100 with no
rounding; when the price is a whole number of cents (n/100) this coincides
with round(priceColumn times 100), but finer prices are stored unrounded. -/
theorem c3_amended (row : Row) (q : ℚ) (h : row.priceCol = JSNum.num q) :
    (normalizeRecord row).price = JSNum.num (q * 100)
    ∧ ∀ n : ℤ, q = (n : ℚ) / 100 →
        (normalizeRecord row).price = JSNum.num ((round (q * 100) : ℤ) : ℚ) := by
  constructor
  · simp [normalizeRecord, jsMul, h]
  · intro n hn
    subst hn
    have h100 : ((n : ℚ) / 100) * 100 = (n : ℚ) := by
      field_simp
    simp [normalizeRecord, jsMul, h, h100, round_intCast]

def rowQW : Row := ⟨"normal", JSNum.num 1, "mq", "sq", JSNum.num (123/100)⟩

/-- Witness for the amended C3 at price 1.23: the stored price equals the
rounded cent value. -/
theorem c3_amended_witness :
    (normalizeRecord rowQW).price =
      JSNum.num ((round ((123/100 : ℚ) * 100) : ℤ) : ℚ) :=
  (c3_amended rowQW (123/100) rfl).2 123 (by norm_num)

def rowMW : Row := ⟨"foil", JSNum.nan, "mm", "s", JSNum.nan⟩
def svcMW : Query → Except Unit ScryfallResponse :=
  fun _ => Except.ok ⟨[metaFor "s"]⟩

theorem runBatches_abort (svc : Query → Except Unit ScryfallResponse) :
    ∀ (bs : List (List Record)) (tc : Nat) (tp : JSNum) (acc : List Record),
      (∃ b ∈ bs, processBatch svc b = BatchOutcome.aborted) →
      (runBatches svc bs tc tp acc).summary = none
      ∧ (runBatches svc bs tc tp acc).exitCode = 1
      ∧ (runBatches svc bs tc tp acc).connectionReleased = true := by
  intro bs
  induction bs with
  | nil =>
      intro tc tp acc h
      obtain ⟨b, hb, _⟩ := h
      cases hb
  | cons b0 bs ih =>
      intro tc tp acc h
      simp only [runBatches]
      cases hpb : processBatch svc b0 with
      | aborted => exact ⟨rfl, rfl, rfl⟩
      | ok cards p n =>
          obtain ⟨b, hb, habort⟩ := h
          rcases List.mem_cons.1 hb with rfl | hmem
          · rw [hpb] at habort
            exact absurd habort (by simp)
          · exact ih _ _ _ ⟨b, hmem, habort⟩

/-- C4 fails as stated: a row whose numeric columns are malformed (NaN) is
normalized without any error (readCsv yields its record), and that record
is processed: its identifier goes into the lookup request and the merge
enriches it. The run does abort with exit 1 and no summary, but only at
persistence, where insertMany's Number casts reject the record, not at
normalization with a MalformedRecord error. -/
theorem c4_counterexample :
    rowMW.priceCol = JSNum.nan
    ∧ rowMW.quantityCol = JSNum.nan
    ∧ readCsv [rowMW] = [normalizeRecord rowMW]
    ∧ buildIdentifiers (readCsv [rowMW]) = [⟨"s"⟩]
    ∧ mergeLoop (readCsv [rowMW]) [metaFor "s"] =
        some ([enrichWith (normalizeRecord rowMW) (metaFor "s") ⟨uW, none⟩],
          jsAdd (jsMul (normalizeRecord rowMW).price
            (normalizeRecord rowMW).quantity) (JSNum.num 0))
    ∧ (runImport svcMW [rowMW]).exitCode = 1
    ∧ (runImport svcMW [rowMW]).savedCards = []
    ∧ (runImport svcMW [rowMW]).summary = none := by
  decide

/-- C4 amended: the normalizer performs no numeric validation and has no
failure path: every row, malformed or not, yields exactly one record in the
readCsv output, a non-numeric price column producing a NaN price carried on
the record, and the record is processed (batched, sent to the service,
enriched). The run still aborts, but at persistence: when a merged batch
contains a card whose quantity or price fails the schema's Number cast,
insertMany rejects into processBatch's catch, so the batch aborts and the
run ends with no summary and exit status 1. -/
theorem c4_amended (rows : List Row) :
    ((readCsv rows).length = rows.length
      ∧ ∀ row ∈ rows, normalizeRecord row ∈ readCsv rows
          ∧ (row.priceCol = JSNum.nan → (normalizeRecord row).price = JSNum.nan))
    ∧ ∀ (svc : Query → Except Unit ScryfallResponse) (records : List Record)
        (res : ScryfallResponse) (cards : List Record) (p : JSNum),
        svc ⟨buildIdentifiers records⟩ = Except.ok res →
        mergeLoop records res.data = some (cards, p) →
        (∃ c ∈ cards, c.price = JSNum.nan ∨ c.quantity = JSNum.nan) →
        processBatch svc records = BatchOutcome.aborted
        ∧ ∀ full : List Record, records ∈ chunks full →
            (processRecords svc full).summary = none
            ∧ (processRecords svc full).exitCode = 1 := by
  constructor
  · refine ⟨List.length_map _ _,
      fun row hrow => ⟨List.mem_map_of_mem _ hrow, fun h => ?_⟩⟩
    simp [normalizeRecord, jsMul, h]
  · intro svc records res cards p hsvc hml hex
    have hnot : ¬ (cards.all
        (fun c => castsToNumber c.quantity && castsToNumber c.price) = true) := by
      intro hall
      rw [List.all_eq_true] at hall
      obtain ⟨c, hc, hbad⟩ := hex
      have hpc := hall c hc
      rcases hbad with hb | hb <;> rw [hb] at hpc <;>
        simp [castsToNumber] at hpc
    have hsave : saveCards cards = Except.error () := by
      unfold saveCards
      rw [if_neg hnot]
    have habort : processBatch svc records = BatchOutcome.aborted := by
      unfold processBatch
      rw [hsvc]
      dsimp only
      rw [hml]
      dsimp only
      rw [hsave]
    refine ⟨habort, fun full hfull => ?_⟩
    have hrun := runBatches_abort svc (chunks full) 0 (JSNum.num 0) []
      ⟨records, hfull, habort⟩
    exact ⟨hrun.1, hrun.2.1⟩

/-- Witness for the amended C4 on a one-row file with malformed quantity and
price: the enriched NaN card makes its batch abort at persistence and the
run ends with no summary and exit 1. -/
theorem c4_amended_witness :
    processBatch svcMW (readCsv [rowMW]) = BatchOutcome.aborted
    ∧ (processRecords svcMW (readCsv [rowMW])).summary = none
    ∧ (processRecords svcMW (readCsv [rowMW])).exitCode = 1 := by
  have h := (c4_amended [rowMW]).2 svcMW (readCsv [rowMW]) ⟨[metaFor "s"]⟩
    [enrichWith (normalizeRecord rowMW) (metaFor "s") ⟨uW, none⟩]
    (jsAdd (jsMul (normalizeRecord rowMW).price
      (normalizeRecord rowMW).quantity) (JSNum.num 0))
    rfl rfl
    ⟨enrichWith (normalizeRecord rowMW) (metaFor "s") ⟨uW, none⟩,
      by decide, Or.inl rfl⟩
  exact ⟨h.1, (h.2 (readCsv [rowMW]) (by decide)).1,
    (h.2 (readCsv [rowMW]) (by decide)).2⟩

theorem chunksGo_eq_nil_iff (fuel : Nat) (l : List Record)
    (h : l.length ≤ fuel) : chunksGo fuel l = [] ↔ l = [] := by
  cases fuel with
  | zero =>
      cases l with
      | nil => simp [chunksGo]
      | cons x xs => simp at h
  | succ n =>
      cases l with
      | nil => simp [chunksGo]
      | cons x xs => simp [chunksGo]

theorem chunksGo_join (fuel : Nat) (l : List Record) (h : l.length ≤ fuel) :
    (chunksGo fuel l).flatten = l := by
  induction fuel generalizing l with
  | zero =>
      cases l with
      | nil => rfl
      | cons x xs => simp at h
  | succ n ih =>
      cases l with
      | nil => rfl
      | cons x xs =>
          simp only [chunksGo, List.flatten_cons]
          rw [ih ((x :: xs).drop BATCH_SIZE) (by simp [BATCH_SIZE] at h ⊢; omega)]
          exact List.take_append_drop _ _

theorem chunksGo_dropLast (fuel : Nat) (l : List Record) (h : l.length ≤ fuel) :
    ∀ c ∈ (chunksGo fuel l).dropLast, c.length = BATCH_SIZE := by
  induction fuel generalizing l with
  | zero =>
      cases l with
      | nil => simp [chunksGo]
      | cons x xs => simp at h
  | succ n ih =>
      cases l with
      | nil => simp [chunksGo]
      | cons x xs =>
          have hlen : ((x :: xs).drop BATCH_SIZE).length ≤ n := by
            simp [BATCH_SIZE] at h ⊢; omega
          simp only [chunksGo]
          cases hrest : chunksGo n ((x :: xs).drop BATCH_SIZE) with
          | nil => simp
          | cons y ys =>
              intro c hc
              rw [List.dropLast_cons₂] at hc
              rcases List.mem_cons.1 hc with hceq | hctail
              · subst hceq
                have hne : (x :: xs).drop BATCH_SIZE ≠ [] := by
                  intro hnil
                  rw [(chunksGo_eq_nil_iff n _ hlen).2 hnil] at hrest
                  exact List.noConfusion hrest
                have hlong : BATCH_SIZE < (x :: xs).length := by
                  by_contra hle
                  push_neg at hle
                  exact hne (List.drop_eq_nil_of_le hle)
                simp only [List.length_take]
                omega
              · exact ih _ hlen c (hrest ▸ hctail)

theorem chunksGo_getLast? (fuel : Nat) (l : List Record) (h : l.length ≤ fuel) :
    ∀ c, (chunksGo fuel l).getLast? = some c →
      0 < c.length ∧ c.length ≤ BATCH_SIZE := by
  induction fuel generalizing l with
  | zero =>
      cases l with
      | nil => simp [chunksGo]
      | cons x xs => simp at h
  | succ n ih =>
      cases l with
      | nil => simp [chunksGo]
      | cons x xs =>
          have hlen : ((x :: xs).drop BATCH_SIZE).length ≤ n := by
            simp [BATCH_SIZE] at h ⊢; omega
          simp only [chunksGo]
          cases hrest : chunksGo n ((x :: xs).drop BATCH_SIZE) with
          | nil =>
              intro c hc
              simp only [List.getLast?_singleton, Option.some.injEq] at hc
              subst hc
              have hnil : (x :: xs).drop BATCH_SIZE = [] :=
                (chunksGo_eq_nil_iff n _ hlen).1 hrest
              have hshort : (x :: xs).length ≤ BATCH_SIZE := by
                have hd := List.length_drop BATCH_SIZE (x :: xs)
                rw [hnil] at hd
                simp only [List.length_nil] at hd
                omega
              constructor
              · simp only [List.length_take]
                have : 0 < BATCH_SIZE := by simp [BATCH_SIZE]
                simp only [List.length_cons] at hshort ⊢
                omega
              · simp only [List.length_take]
                omega
          | cons y ys =>
              intro c hc
              rw [List.getLast?_cons_cons] at hc
              exact ih _ hlen c (hrest ▸ hc)

theorem chunksGo_length (fuel : Nat) (l : List Record) (h : l.length ≤ fuel) :
    (chunksGo fuel l).length = (l.length + (BATCH_SIZE - 1)) / BATCH_SIZE := by
  induction fuel generalizing l with
  | zero =>
      cases l with
      | nil => simp [chunksGo, BATCH_SIZE]
      | cons x xs => simp at h
  | succ n ih =>
      cases l with
      | nil => simp [chunksGo, BATCH_SIZE]
      | cons x xs =>
          simp only [chunksGo, List.length_cons]
          rw [ih ((x :: xs).drop BATCH_SIZE) (by simp [BATCH_SIZE] at h ⊢; omega)]
          simp only [List.length_drop, List.length_cons, BATCH_SIZE]
          omega

/-- C6: the batching loop with batch size 75 yields ceil(N/75) contiguous
slices whose concatenation reproduces the input exactly; every slice before
the last has length 75 and the last is nonempty of length at most 75. -/
theorem c6_batcher (l : List Record) :
    (chunks l).flatten = l
    ∧ (chunks l).length = (l.length + (BATCH_SIZE - 1)) / BATCH_SIZE
    ∧ (∀ c ∈ (chunks l).dropLast, c.length = BATCH_SIZE)
    ∧ (∀ c, (chunks l).getLast? = some c →
        0 < c.length ∧ c.length ≤ BATCH_SIZE) :=
  ⟨chunksGo_join _ _ le_rfl, chunksGo_length _ _ le_rfl,
   chunksGo_dropLast _ _ le_rfl, chunksGo_getLast? _ _ le_rfl⟩

/-- Witness for C6 on a concrete two-record sequence. -/
theorem c6_batcher_witness :
    (chunks [rAW, rBW]).flatten = [rAW, rBW]
    ∧ (0 < ([rAW, rBW] : List Record).length
        ∧ ([rAW, rBW] : List Record).length ≤ BATCH_SIZE) :=
  ⟨(c6_batcher [rAW, rBW]).1,
   (c6_batcher [rAW, rBW]).2.2.2 [rAW, rBW] (by decide)⟩

/-! Properties of the merge loop. -/

theorem find?_first (p : Record → Bool) (l : List Record) (r : Record)
    (h : l.find? p = some r) :
    ∃ i, ∃ hi : i < l.length, l[i] = r ∧ p r = true
      ∧ ∀ j (hj : j < l.length), j < i → p (l[j]) = false := by
  induction l with
  | nil => simp at h
  | cons x xs ih =>
      by_cases hx : p x = true
      · rw [List.find?_cons_of_pos _ hx] at h
        obtain rfl : x = r := by simpa using h
        exact ⟨0, by simp, rfl, hx, fun j hj hji => absurd hji (by omega)⟩
      · rw [List.find?_cons_of_neg _ hx] at h
        obtain ⟨i, hi, hget, hpr, hbefore⟩ := ih h
        refine ⟨i + 1, by simpa using Nat.succ_lt_succ hi, by simpa using hget,
          hpr, fun j hj hji => ?_⟩
        cases j with
        | zero => simpa using Bool.not_eq_true _ ▸ hx
        | succ k =>
            have hk : k < xs.length := by simp at hj; omega
            have := hbefore k hk (by omega)
            simpa using this

/-- C9: the lookup request lists one identifier per record of the batch, in
batch order with duplicates preserved, and each returned metadata object is
merged onto the first record in batch order whose scryfallId equals the
metadata's id, contributing that record's price times quantity. -/
theorem c9_request_and_first_match (records : List Record) :
    ((buildIdentifiers records).map Identifier.id = records.map Record.scryfallId)
    ∧ (buildIdentifiers records).length = records.length
    ∧ ∀ (card : CardMeta) (c : Record) (v : JSNum),
        mergeStep records card = some (c, v) →
        ∃ i, ∃ hi : i < records.length,
          records[i].scryfallId = card.id
          ∧ enrich records[i] card = some c
          ∧ v = jsMul records[i].price records[i].quantity
          ∧ ∀ j (hj : j < records.length), j < i →
              records[j].scryfallId ≠ card.id := by
  refine ⟨by simp [buildIdentifiers], by simp [buildIdentifiers], ?_⟩
  intro card c v h
  unfold mergeStep at h
  cases hfind : records.find? (fun r => r.scryfallId == card.id) with
  | none => rw [hfind] at h; simp at h
  | some r =>
      rw [hfind] at h
      obtain ⟨c', hc', hpair⟩ := Option.map_eq_some'.1 h
      have hcc : c' = c := congrArg Prod.fst hpair
      have hvv : jsMul r.price r.quantity = v := congrArg Prod.snd hpair
      subst hcc
      obtain ⟨i, hi, hget, hpr, hbefore⟩ := find?_first _ _ _ hfind
      refine ⟨i, hi, ?_, ?_, ?_, fun j hj hji => ?_⟩
      · rw [hget]
        exact eq_of_beq hpr
      · rw [hget]
        exact hc'
      · rw [hget]
        exact hvv.symm
      · have hfalse := hbefore j hj hji
        intro heq
        simp [heq] at hfalse

def rA2W : Record :=
  Record.mk true (JSNum.num 5) "ma2" "a" (JSNum.num 70)
    none none none none none none
def recs9W : List Record := [rBW, rAW, rA2W]

/-- Witness for C9: in a batch with two records sharing scryfallId "a", the
metadata for "a" lands on the earlier of the two. -/
theorem c9_request_and_first_match_witness :
    ∃ i, ∃ hi : i < recs9W.length,
      recs9W[i].scryfallId = (metaFor "a").id
      ∧ enrich recs9W[i] (metaFor "a") =
          some (enrichWith rAW (metaFor "a") ⟨uW, none⟩)
      ∧ jsMul rAW.price rAW.quantity =
          jsMul recs9W[i].price recs9W[i].quantity
      ∧ ∀ j (hj : j < recs9W.length), j < i →
          recs9W[j].scryfallId ≠ (metaFor "a").id :=
  (c9_request_and_first_match recs9W).2.2 (metaFor "a")
    (enrichWith rAW (metaFor "a") ⟨uW, none⟩)
    (jsMul rAW.price rAW.quantity) (by rfl)

/-- C10: the cards array handed to saveCards is built in the order of the
response's data list (its i-th card comes from the i-th metadata object),
so a response ordered differently from the batch is persisted out of the
batch's original row order, as on the concrete swapped response below. -/
theorem c10_persistence_order :
    (∀ (records : List Record) (metas : List CardMeta) (cards : List Record)
        (p : JSNum),
        mergeLoop records metas = some (cards, p) →
          cards.length = metas.length
          ∧ ∀ i (hi : i < metas.length) (hci : i < cards.length),
              ∃ v, mergeStep records metas[i] = some (cards[i], v))
    ∧ (mergeLoop [rAW, rBW] [metaFor "b", metaFor "a"]).map
        (fun pr => pr.1.map Record.scryfallId) = some ["b", "a"]
    ∧ [rAW, rBW].map Record.scryfallId = ["a", "b"] := by
  refine ⟨?_, by rfl, by rfl⟩
  intro records metas
  induction metas with
  | nil =>
      intro cards p h
      simp only [mergeLoop, Option.some.injEq] at h
      have hcards : cards = [] := (congrArg Prod.fst h).symm
      subst hcards
      exact ⟨rfl, fun i hi _ => absurd hi (by simp)⟩
  | cons m ms ih =>
      intro cards p h
      simp only [mergeLoop] at h
      obtain ⟨cv, hstep, hmap⟩ := Option.bind_eq_some.1 h
      obtain ⟨csp, hrest, heq⟩ := Option.map_eq_some'.1 hmap
      obtain ⟨c, v⟩ := cv
      obtain ⟨cs, pp⟩ := csp
      have hcards : cards = c :: cs := (congrArg Prod.fst heq).symm
      subst hcards
      obtain ⟨hlen, hidx⟩ := ih cs pp hrest
      refine ⟨by simp [hlen], fun i hi hci => ?_⟩
      cases i with
      | zero => exact ⟨v, by simpa using hstep⟩
      | succ k =>
          have hk : k < ms.length := by
            simp only [List.length_cons] at hi
            omega
          have hck : k < cs.length := by omega
          obtain ⟨v', hv'⟩ := hidx k hk hck
          exact ⟨v', by simpa using hv'⟩

theorem find?_eq_of_nodup (l : List Record) (x : Record)
    (hnd : (l.map Record.scryfallId).Nodup) (hx : x ∈ l) :
    l.find? (fun r => r.scryfallId == x.scryfallId) = some x := by
  induction l with
  | nil => cases hx
  | cons y ys ih =>
      simp only [List.map_cons, List.nodup_cons] at hnd
      rcases List.mem_cons.1 hx with rfl | hmem
      · exact List.find?_cons_of_pos _ (by simp)
      · have hyne : (y.scryfallId == x.scryfallId) = false := by
          simp only [beq_eq_false_iff_ne, ne_eq]
          intro he
          exact hnd.1 (he ▸ List.mem_map_of_mem _ hmem)
        rw [List.find?_cons_of_neg _ (by simp [hyne])]
        exact ih hnd.2 hmem

/-- Total added to totalPrice by a batch whose enriched records are exactly
the given list, in order: the sum of price times quantity. -/
def sumValue (l : List Record) : JSNum :=
  l.foldr (fun x acc => jsAdd (jsMul x.price x.quantity) acc) (JSNum.num 0)

theorem mergeLoop_map (records : List Record) (f : Record → CardMeta)
    (imgs : Record → ImageSet) :
    ∀ others : List Record,
      (∀ x ∈ others,
          records.find? (fun r => r.scryfallId == (f x).id) = some x
          ∧ mkImages (f x) = some (imgs x)) →
      mergeLoop records (others.map f) =
        some (others.map (fun x => enrichWith x (f x) (imgs x)),
          sumValue others) := by
  intro others
  induction others with
  | nil => intro _; rfl
  | cons z zs ih =>
      intro hall
      obtain ⟨hfz, hiz⟩ := hall z (by simp)
      have hstep : mergeStep records (f z) =
          some (enrichWith z (f z) (imgs z), jsMul z.price z.quantity) := by
        simp [mergeStep, hfz, enrich, hiz]
      have hrest := ih (fun x hx => hall x (by simp [hx]))
      simp only [List.map_cons, mergeLoop, hstep, hrest, Option.bind_some,
        Option.map_some']
      simp [sumValue]

/-- C2 fails as stated: in a batch [a, b] where a's identifier is absent
from the response, a is omitted from persistence (only b is saved) but
totalCards still counts it: the summary total is 2, not 1. -/
theorem c2_counterexample :
    (processRecords (fun _ => Except.ok ⟨[metaFor "b"]⟩)
        [rAW, rBW]).savedCards.map Record.scryfallId = ["b"]
    ∧ (processRecords (fun _ => Except.ok ⟨[metaFor "b"]⟩)
        [rAW, rBW]).summary.map Summary.total = some 2 := by
  constructor <;> rfl

/-- C2 amended: in a batch of schema-valid records (numeric quantity and
price, so insertMany's casts succeed) with pairwise-distinct scryfallIds
where exactly the record r is absent from the response, every other record
is enriched and handed to persistence (r is omitted) and only the others
contribute to totalPrice; but processBatch still returns the full batch
length, so totalCards counts the dropped record as well. -/
theorem c2_amended (pre post : List Record) (r : Record)
    (svc : Query → Except Unit ScryfallResponse)
    (f : Record → CardMeta) (imgs : Record → ImageSet)
    (hnd : ((pre ++ r :: post).map Record.scryfallId).Nodup)
    (hid : ∀ x ∈ pre ++ post, (f x).id = x.scryfallId)
    (himg : ∀ x ∈ pre ++ post, mkImages (f x) = some (imgs x))
    (hcast : ∀ x ∈ pre ++ post,
        castsToNumber x.quantity = true ∧ castsToNumber x.price = true)
    (hsvc : svc ⟨buildIdentifiers (pre ++ r :: post)⟩ =
        Except.ok ⟨(pre ++ post).map f⟩) :
    processBatch svc (pre ++ r :: post) =
      BatchOutcome.ok
        ((pre ++ post).map (fun x => enrichWith x (f x) (imgs x)))
        (sumValue (pre ++ post)) (pre.length + post.length + 1)
    ∧ r.scryfallId ∉
        ((pre ++ post).map (fun x => enrichWith x (f x) (imgs x))).map
          Record.scryfallId := by
  have hfind : ∀ x ∈ pre ++ post,
      (pre ++ r :: post).find? (fun rr => rr.scryfallId == (f x).id) =
        some x := by
    intro x hx
    rw [hid x hx]
    refine find?_eq_of_nodup _ _ hnd ?_
    rcases List.mem_append.1 hx with h1 | h2
    · exact List.mem_append.2 (Or.inl h1)
    · exact List.mem_append.2 (Or.inr (List.mem_cons.2 (Or.inr h2)))
  have hml := mergeLoop_map (pre ++ r :: post) f imgs (pre ++ post)
    (fun x hx => ⟨hfind x hx, himg x hx⟩)
  constructor
  · simp only [processBatch, hsvc, hml]
    have hall : ((pre ++ post).map (fun x => enrichWith x (f x) (imgs x))).all
        (fun c => castsToNumber c.quantity && castsToNumber c.price) = true := by
      rw [List.all_eq_true]
      intro c hc
      obtain ⟨x, hx, rfl⟩ := List.mem_map.1 hc
      obtain ⟨h1, h2⟩ := hcast x hx
      simp [enrichWith, h1, h2]
    have hsave : saveCards
        ((pre ++ post).map (fun x => enrichWith x (f x) (imgs x))) =
        Except.ok () := by
      unfold saveCards
      rw [if_pos hall]
    have hlen : (pre ++ r :: post).length = pre.length + post.length + 1 := by
      simp only [List.length_append, List.length_cons]
      omega
    rw [hsave, hlen]
  · have hids :
        ((pre ++ post).map (fun x => enrichWith x (f x) (imgs x))).map
          Record.scryfallId = (pre ++ post).map Record.scryfallId := by
      rw [List.map_map]
      rfl
    rw [hids]
    rw [List.map_append, List.map_cons] at hnd
    obtain ⟨hA, hB, hdisj⟩ := List.nodup_append.1 hnd
    rw [List.map_append]
    intro hmem
    rcases List.mem_append.1 hmem with hin | hin
    · exact hdisj hin (List.mem_cons_self _ _)
    · exact (List.nodup_cons.1 hB).1 hin

def fC2W : Record → CardMeta := fun x => metaFor x.scryfallId
def imgsC2W : Record → ImageSet := fun _ => ⟨uW, none⟩
def svcC2W : Query → Except Unit ScryfallResponse :=
  fun _ => Except.ok ⟨[metaFor "a", metaFor "c"]⟩

/-- Witness for the amended C2 on the batch [a, b, c] with b absent from the
response: a and c are enriched and saved, b's id is not among the saved ids,
and the returned count is the full batch length 3. -/
theorem c2_amended_witness :
    processBatch svcC2W ([rAW] ++ rBW :: [rCW]) =
      BatchOutcome.ok
        (([rAW] ++ [rCW]).map (fun x => enrichWith x (fC2W x) (imgsC2W x)))
        (sumValue ([rAW] ++ [rCW]))
        ([rAW].length + [rCW].length + 1)
    ∧ rBW.scryfallId ∉
        (([rAW] ++ [rCW]).map (fun x => enrichWith x (fC2W x) (imgsC2W x))).map
          Record.scryfallId :=
  c2_amended [rAW] [rCW] rBW svcC2W fC2W imgsC2W
    (by decide) (by decide) (by decide) (by decide) (by rfl)

/-- A record carrying every post-enrichment field; front is mandatory in
ImageSet by construction, so images.isSome covers the front requirement. -/
def fullyEnriched (c : Record) : Prop :=
  c.name.isSome = true ∧ c.setCode.isSome = true ∧ c.setName.isSome = true
  ∧ c.rarity.isSome = true ∧ c.layout.isSome = true ∧ c.images.isSome = true

theorem mergeLoop_enriched (records : List Record) :
    ∀ (metas : List CardMeta) (cards : List Record) (p : JSNum),
      mergeLoop records metas = some (cards, p) →
      ∀ c ∈ cards, fullyEnriched c := by
  intro metas
  induction metas with
  | nil =>
      intro cards p h c hc
      simp only [mergeLoop, Option.some.injEq] at h
      have hcards : cards = [] := (congrArg Prod.fst h).symm
      subst hcards
      cases hc
  | cons m ms ih =>
      intro cards p h c hc
      simp only [mergeLoop] at h
      obtain ⟨cv, hstep, hmap⟩ := Option.bind_eq_some.1 h
      obtain ⟨csp, hrest, heq⟩ := Option.map_eq_some'.1 hmap
      obtain ⟨c0, v0⟩ := cv
      obtain ⟨cs, pp⟩ := csp
      have hcards : cards = c0 :: cs := (congrArg Prod.fst heq).symm
      subst hcards
      rcases List.mem_cons.1 hc with rfl | hmem
      · unfold mergeStep at hstep
        cases hfind : records.find? (fun r => r.scryfallId == m.id) with
        | none => rw [hfind] at hstep; simp at hstep
        | some r =>
            rw [hfind] at hstep
            obtain ⟨c', hc', hpair⟩ := Option.map_eq_some'.1 hstep
            have hcc : c' = c := congrArg Prod.fst hpair
            subst hcc
            obtain ⟨imgs, _, hcw⟩ := Option.map_eq_some'.1 hc'
            rw [← hcw]
            exact ⟨rfl, rfl, rfl, rfl, rfl, rfl⟩
      · exact ih cs pp hrest c hmem

theorem runBatches_enriched (svc : Query → Except Unit ScryfallResponse) :
    ∀ (bs : List (List Record)) (tc : Nat) (tp : JSNum) (acc : List Record),
      (∀ c ∈ acc, fullyEnriched c) →
      ∀ c ∈ (runBatches svc bs tc tp acc).savedCards, fullyEnriched c := by
  intro bs
  induction bs with
  | nil => intro tc tp acc hacc c hc; exact hacc c hc
  | cons b bs ih =>
      intro tc tp acc hacc c hc
      simp only [runBatches] at hc
      cases hpb : processBatch svc b with
      | aborted =>
          rw [hpb] at hc
          exact hacc c hc
      | ok cards p n =>
          rw [hpb] at hc
          refine ih _ _ _ ?_ c hc
          intro d hd
          rcases List.mem_append.1 hd with hd1 | hd2
          · exact hacc d hd1
          · unfold processBatch at hpb
            cases hsv : svc ⟨buildIdentifiers b⟩ with
            | error e => rw [hsv] at hpb; simp at hpb
            | ok res =>
                rw [hsv] at hpb
                dsimp only at hpb
                cases hml : mergeLoop b res.data with
                | none => rw [hml] at hpb; simp at hpb
                | some pr =>
                    rw [hml] at hpb
                    obtain ⟨cs, pp⟩ := pr
                    dsimp only at hpb
                    cases hsc : saveCards cs with
                    | error e => rw [hsc] at hpb; simp at hpb
                    | ok u =>
                        rw [hsc] at hpb
                        dsimp only at hpb
                        simp only [BatchOutcome.ok.injEq] at hpb
                        exact mergeLoop_enriched b res.data cs pp hml d
                          (hpb.1 ▸ hd2)

/-- C8: every record the run hands to persistence carries all
post-enrichment fields (name, setCode, setName, rarity, layout, images with
its mandatory front); no partially-enriched record is ever saved. -/
theorem c8_no_partial_persistence (svc : Query → Except Unit ScryfallResponse)
    (records : List Record) :
    ∀ c ∈ (processRecords svc records).savedCards, fullyEnriched c :=
  runBatches_enriched svc (chunks records) 0 (JSNum.num 0) []
    (fun c hc => absurd hc (List.not_mem_nil c))

/-- Witness for C8: the card saved for record a in a concrete completed run
is fully enriched. -/
theorem c8_no_partial_persistence_witness :
    fullyEnriched (enrichWith rAW (metaFor "a") ⟨uW, none⟩) :=
  c8_no_partial_persistence (fun _ => Except.ok ⟨[metaFor "a"]⟩) [rAW]
    (enrichWith rAW (metaFor "a") ⟨uW, none⟩) (by decide)

theorem processBatch_ret (svc : Query → Except Unit ScryfallResponse)
    (b : List Record) (cards : List Record) (p : JSNum) (n : Nat)
    (h : processBatch svc b = BatchOutcome.ok cards p n) : n = b.length := by
  unfold processBatch at h
  cases hsv : svc ⟨buildIdentifiers b⟩ with
  | error e => rw [hsv] at h; simp at h
  | ok res =>
      rw [hsv] at h
      dsimp only at h
      cases hml : mergeLoop b res.data with
      | none => rw [hml] at h; simp at h
      | some pr =>
          rw [hml] at h
          obtain ⟨cs, pp⟩ := pr
          dsimp only at h
          cases hsc : saveCards cs with
          | error e => rw [hsc] at h; simp at h
          | ok u =>
              rw [hsc] at h
              dsimp only at h
              simp only [BatchOutcome.ok.injEq] at h
              exact h.2.2.symm

theorem runBatches_total (svc : Query → Except Unit ScryfallResponse) :
    ∀ (bs : List (List Record)) (tc : Nat) (tp : JSNum) (acc : List Record)
      (s : Summary), (runBatches svc bs tc tp acc).summary = some s →
      s.total = tc + (bs.map List.length).sum := by
  intro bs
  induction bs with
  | nil =>
      intro tc tp acc s h
      simp only [runBatches, Option.some.injEq] at h
      rw [← h]
      simp
  | cons b bs ih =>
      intro tc tp acc s h
      simp only [runBatches] at h
      cases hpb : processBatch svc b with
      | aborted => rw [hpb] at h; simp [exitRun] at h
      | ok cards p n =>
          rw [hpb] at h
          dsimp only at h
          have hn := processBatch_ret svc b cards p n hpb
          rw [ih _ _ _ _ h, hn]
          simp only [List.map_cons, List.sum_cons]
          omega

/-- C1 fails as stated: with a batch of two records of which only one is
enriched (the other's id is absent from the response), only one card is
saved but totalCards is incremented by 2, the batch length. -/
theorem c1_counterexample :
    (processRecords (fun _ => Except.ok ⟨[metaFor "a"]⟩)
        [rAW, rBW]).savedCards.length = 1
    ∧ (processRecords (fun _ => Except.ok ⟨[metaFor "a"]⟩)
        [rAW, rBW]).summary.map Summary.total = some 2 := by
  constructor <;> rfl

/-- C1 amended: processBatch returns the batch's input length, so totalCards
grows by the number of records in each batch, not the number the merge
enriched; on any completed run the summary total equals the full input
record count (which equals the enriched count only when nothing was
dropped). -/
theorem c1_amended (svc : Query → Except Unit ScryfallResponse)
    (records : List Record) (s : Summary)
    (h : (processRecords svc records).summary = some s) :
    s.total = records.length := by
  have ht := runBatches_total svc (chunks records) 0 (JSNum.num 0) [] s h
  rw [ht, Nat.zero_add, ← List.length_flatten]
  rw [show (chunks records).flatten = records from
    chunksGo_join records.length records le_rfl]

def svcC1W : Query → Except Unit ScryfallResponse :=
  fun _ => Except.ok ⟨[metaFor "a", metaFor "b"]⟩

/-- Witness for the amended C1: a fully-matched run over two records
(prices 100 and 200 cents, quantities 2 and 1) completes with summary total
equal to the input length 2. -/
theorem c1_amended_witness :
    (Summary.mk 2 (jsAdd (JSNum.num 0)
        (jsAdd (jsMul rAW.price rAW.quantity)
          (jsAdd (jsMul rBW.price rBW.quantity) (JSNum.num 0))))).total =
      ([rAW, rBW] : List Record).length :=
  c1_amended svcC1W [rAW, rBW]
    (Summary.mk 2 (jsAdd (JSNum.num 0)
      (jsAdd (jsMul rAW.price rAW.quantity)
        (jsAdd (jsMul rBW.price rBW.quantity) (JSNum.num 0))))) (by rfl)

/-- C5: whenever the enrichment call fails (transport error or non-success
status, both Except.error) on any batch of the run, the run aborts: no
summary document is written, the store connection is released and the exit
status is 1; and when the failing batch is the first one, no card at all has
been handed to persistence. -/
theorem c5_enrichment_failure_aborts (svc : Query → Except Unit ScryfallResponse)
    (records : List Record) :
    ((∃ b ∈ chunks records, ∃ e, svc ⟨buildIdentifiers b⟩ = Except.error e) →
      (processRecords svc records).summary = none
      ∧ (processRecords svc records).exitCode = 1
      ∧ (processRecords svc records).connectionReleased = true)
    ∧ ∀ b bs, chunks records = b :: bs →
        (∃ e, svc ⟨buildIdentifiers b⟩ = Except.error e) →
        (processRecords svc records).savedCards = []
        ∧ (processRecords svc records).summary = none
        ∧ (processRecords svc records).exitCode = 1 := by
  constructor
  · intro hex
    obtain ⟨b, hb, e, he⟩ := hex
    exact runBatches_abort svc (chunks records) 0 (JSNum.num 0) []
      ⟨b, hb, by simp [processBatch, he]⟩
  · intro b bs hchunks hex
    obtain ⟨e, he⟩ := hex
    unfold processRecords
    rw [hchunks]
    simp only [runBatches]
    have habort : processBatch svc b = BatchOutcome.aborted := by
      simp [processBatch, he]
    rw [habort]
    exact ⟨rfl, rfl, rfl⟩

def svcFailW : Query → Except Unit ScryfallResponse := fun _ => Except.error ()

/-- Witness for C5: a run over one record whose only enrichment call fails
persists nothing, writes no summary and exits 1. -/
theorem c5_enrichment_failure_aborts_witness :
    (processRecords svcFailW [rAW]).savedCards = []
    ∧ (processRecords svcFailW [rAW]).summary = none
    ∧ (processRecords svcFailW [rAW]).exitCode = 1 :=
  (c5_enrichment_failure_aborts svcFailW [rAW]).2 [rAW] [] (by rfl) ⟨(), rfl⟩

def cardsOW : List Record :=
  [enrichWith rBW (metaFor "b") ⟨uW, none⟩,
   enrichWith rAW (metaFor "a") ⟨uW, none⟩]
def pOW : JSNum :=
  jsAdd (jsMul rBW.price rBW.quantity)
    (jsAdd (jsMul rAW.price rAW.quantity) (JSNum.num 0))

/-- Witness for C10 on the concrete swapped response: the merge output has
one card per metadata object. -/
theorem c10_persistence_order_witness :
    cardsOW.length = ([metaFor "b", metaFor "a"] : List CardMeta).length :=
  (c10_persistence_order.1 [rAW, rBW] [metaFor "b", metaFor "a"]
    cardsOW pOW (by rfl)).1
